import Mathlib

/-!
# Verification of `timed_lru_caching.py`

Shallow embedding of the timed LRU cache (engine `TimedLRUCache` and the
memoizing adapter `_TimedLRUCacheWrapper`) from `src/timed_lru_caching.py`.

Modelling choices, all taken from the source:

* The backing `OrderedDict` is an association list `List (K × Item)`; the
  front of the list is the head of the `OrderedDict` (least-recently-used)
  and the back is the tail (most-recently-used).  `odLookup`, `odInsert`
  (Python `d[key] = v`: update in place keeping position, else append),
  `odPop` (`d.pop(key)`), `odMoveToEnd` (`d.move_to_end(key)`) and
  `List.tail` (`d.popitem(last=False)`) mirror the `OrderedDict` operations
  the source uses.
* Python `float` timestamps and TTLs are modelled as exact rationals `ℚ`;
  `time.time()` is an external input, so the current time is an explicit
  argument `ct` of the operations that read the clock.
* `max_size : Option Int` and `ttl : Option ℚ` keep Python's `None`;
  Python truthiness tests (`if self._ttl`, `if self._max_size`) are spelled
  out: `None` and `0` are falsy, everything else truthy.
* In the adapter, the wrapped function returns a Python value that may be
  `None`; its result type is therefore `Option B` (`none` = Python `None`),
  and the engine is instantiated at value type `Option B`.  The engine's
  `get` returns `T | None`; in Lean, `Option V` with `none` for Python
  `None`.  Since the adapter's value type is itself `Option B`, the Python
  expression `res` (which cannot distinguish "absent" from "stored None")
  is the join `Option.join : Option (Option B) → Option B`.
* A failing wrapped computation is modelled with `Except E`; the adapter's
  `__call__` then propagates the error exactly where Python propagates the
  exception (before the `add`).
-/

namespace TimedLRU

variable {K V A B E : Type} [DecidableEq K] [DecidableEq A]

/-- `_TimedLRUCacheItem`: the value together with the time it was added. -/
structure TimedLRUCacheItem (V : Type) where
  value : V
  time_added : ℚ
  deriving DecidableEq, Repr

/-- `TimedLRUCache.__init__` state: configuration plus the ordered map.
`cache` is the `OrderedDict`, head (LRU) first, tail (MRU) last. -/
structure TimedLRUCache (K V : Type) where
  max_size : Option Int
  ttl : Option ℚ
  cache : List (K × TimedLRUCacheItem V)
  deriving DecidableEq, Repr

/-- `OrderedDict` lookup `d[key]` / `key in d` (as an `Option`). -/
def odLookup : List (K × TimedLRUCacheItem V) → K → Option (TimedLRUCacheItem V)
  | [], _ => none
  | (k', i) :: rest, k => if k' = k then some i else odLookup rest k

/-- `OrderedDict` assignment `d[key] = item`: overwrite in place if the key
is present (keeping its position), otherwise append at the tail. -/
def odInsert : List (K × TimedLRUCacheItem V) → K → TimedLRUCacheItem V →
    List (K × TimedLRUCacheItem V)
  | [], k, i => [(k, i)]
  | (k', i') :: rest, k, i =>
      if k' = k then (k, i) :: rest else (k', i') :: odInsert rest k i

/-- `OrderedDict.pop(key)`: remove the binding of `key` (first occurrence). -/
def odPop : List (K × TimedLRUCacheItem V) → K → List (K × TimedLRUCacheItem V)
  | [], _ => []
  | (k', i) :: rest, k => if k' = k then rest else (k', i) :: odPop rest k

/-- `OrderedDict.move_to_end(key)`: move the binding of `key` to the tail
(most-recently-used).  The source only calls it on present keys; on an
absent key this model is the identity. -/
def odMoveToEnd (l : List (K × TimedLRUCacheItem V)) (k : K) :
    List (K × TimedLRUCacheItem V) :=
  match odLookup l k with
  | none => l
  | some i => odPop l k ++ [(k, i)]

/-- Python truthiness of `self._ttl` combined with the staleness test:
`self._ttl and ct - item.time_added >= self._ttl` (line 54). -/
def ttlExpired (ttl : Option ℚ) (ct time_added : ℚ) : Bool :=
  match ttl with
  | none => false
  | some t => decide (t ≠ 0) && decide (ct - time_added ≥ t)

/-- Python truthiness of `self._max_size` combined with the capacity test:
`self._max_size and len(self._cache) == self._max_size` (line 72). -/
def capReached (max_size : Option Int) (n : Nat) : Bool :=
  match max_size with
  | none => false
  | some m => decide (m ≠ 0) && decide ((n : Int) = m)

/-- `TimedLRUCache.get(key)` at current time `ct`: returns the Python
return value (`none` = Python `None`) and the updated cache state. -/
def TimedLRUCache.get (c : TimedLRUCache K V) (ct : ℚ) (key : K) :
    Option V × TimedLRUCache K V :=
  match odLookup c.cache key with
  | none => (none, c)
  | some item =>
      if ttlExpired c.ttl ct item.time_added then
        (none, { c with cache := odPop c.cache key })
      else
        (some item.value, { c with cache := odMoveToEnd c.cache key })

/-- `TimedLRUCache.add(key, value, time_added=None)` at current time `ct`:
`ta = time.time() if time_added is None else time_added`, evict the head
when the capacity test fires, insert, move to tail. -/
def TimedLRUCache.add (c : TimedLRUCache K V) (ct : ℚ) (key : K) (value : V)
    (time_added : Option ℚ) : TimedLRUCache K V :=
  let ta := time_added.getD ct
  let cache1 := if capReached c.max_size c.cache.length then c.cache.tail else c.cache
  let cache2 := odInsert cache1 key ⟨value, ta⟩
  { c with cache := odMoveToEnd cache2 key }

/-- `TimedLRUCache.__len__`. -/
def TimedLRUCache.len (c : TimedLRUCache K V) : Nat :=
  c.cache.length

/-- `TimedLRUCache.clear`. -/
def TimedLRUCache.clear (c : TimedLRUCache K V) : TimedLRUCache K V :=
  { c with cache := [] }

/-- A fresh engine, as built by `TimedLRUCache.__init__`. -/
def TimedLRUCache.mk0 (max_size : Option Int) (ttl : Option ℚ) :
    TimedLRUCache K V :=
  { max_size := max_size, ttl := ttl, cache := [] }

/-- `_TimedLRUCacheWrapper` state: the engine (value type `Option B`, since
the wrapped Python function may return `None`), hit/miss counters and the
remembered `max_size`.  The wrapped function itself is passed to `call`. -/
structure TimedLRUCacheWrapper (A B : Type) where
  cache : TimedLRUCache A (Option B)
  hits : Nat
  misses : Nat
  max_size : Option Int
  deriving DecidableEq, Repr

/-- A fresh wrapper, as built by `_TimedLRUCacheWrapper.__init__`. -/
def TimedLRUCacheWrapper.mk0 (max_size : Option Int) (ttl : Option ℚ) :
    TimedLRUCacheWrapper A B :=
  { cache := TimedLRUCache.mk0 max_size ttl, hits := 0, misses := 0,
    max_size := max_size }

/-- `_TimedLRUCacheInfo` as returned by `cache_info()`. -/
structure TimedLRUCacheInfo where
  hits : Nat
  misses : Nat
  current_size : Nat
  max_size : Option Int
  deriving DecidableEq, Repr

/-- `_TimedLRUCacheWrapper.__call__` at current time `ct` with derived key
`a` (the tuple `args + tuple(kwargs.items())`) and wrapped function `fn`
returning `(result, optional timestamp)`.  Returns the call's result, the
new wrapper state, and how many times `fn` was invoked during the call
(0 or 1).  `res0.join` is the Python variable `res`: Python cannot
distinguish an engine miss (`get` returned `None`) from a stored `None`. -/
def TimedLRUCacheWrapper.call (w : TimedLRUCacheWrapper A B)
    (fn : A → Option B × Option ℚ) (ct : ℚ) (a : A) :
    Option B × TimedLRUCacheWrapper A B × Nat :=
  let res0c := w.cache.get ct a
  match res0c.1.join with
  | none =>
      let fr := fn a
      (fr.1,
       { w with cache := res0c.2.add ct a fr.1 fr.2, misses := w.misses + 1 },
       1)
  | some b =>
      (some b, { w with cache := res0c.2, hits := w.hits + 1 }, 0)

/-- `_TimedLRUCacheWrapper.__call__` for a wrapped function that may fail
(raise): `fn` returns `Except E _`.  The miss is counted before `fn` is
invoked; on failure the error propagates before the `add` runs. -/
def TimedLRUCacheWrapper.callE (w : TimedLRUCacheWrapper A B)
    (fn : A → Except E (Option B × Option ℚ)) (ct : ℚ) (a : A) :
    Except E (Option B) × TimedLRUCacheWrapper A B × Nat :=
  let res0c := w.cache.get ct a
  match res0c.1.join with
  | none =>
      let w1 : TimedLRUCacheWrapper A B :=
        { w with cache := res0c.2, misses := w.misses + 1 }
      match fn a with
      | .error e => (.error e, w1, 1)
      | .ok fr =>
          (.ok fr.1, { w1 with cache := res0c.2.add ct a fr.1 fr.2 }, 1)
  | some b =>
      (.ok (some b), { w with cache := res0c.2, hits := w.hits + 1 }, 0)

/-- `_TimedLRUCacheWrapper.cache_info()`. -/
def TimedLRUCacheWrapper.cache_info (w : TimedLRUCacheWrapper A B) :
    TimedLRUCacheInfo :=
  { hits := w.hits, misses := w.misses, current_size := w.cache.len,
    max_size := w.max_size }

/-- `_TimedLRUCacheWrapper.clear()`. -/
def TimedLRUCacheWrapper.clear (w : TimedLRUCacheWrapper A B) :
    TimedLRUCacheWrapper A B :=
  { w with cache := w.cache.clear, hits := 0, misses := 0 }

/-! ## Operation sequences (for the capacity invariant, C4) -/

/-- One public engine operation.  `get` and `add` carry the clock reading
(`time.time()`) observed during the call; `len` is pure. -/
inductive EngineOp (K V : Type) where
  | get (ct : ℚ) (k : K)
  | add (ct : ℚ) (k : K) (v : V) (ts : Option ℚ)
  | len
  | clear

/-- State transition of one engine operation. -/
def stepOp (c : TimedLRUCache K V) : EngineOp K V → TimedLRUCache K V
  | .get ct k => (c.get ct k).2
  | .add ct k v ts => c.add ct k v ts
  | .len => c
  | .clear => c.clear

/-- Run a sequence of engine operations. -/
def runOps (c : TimedLRUCache K V) (ops : List (EngineOp K V)) : TimedLRUCache K V :=
  ops.foldl stepOp c

/-! ## Insertion sequences and LRU order (C7) -/

/-- Fold a list of `(key, value, timestamp)` triples into the engine via
`add`, each with an explicit timestamp (so the clock argument of `add` is
irrelevant and fixed to `0`). -/
def addSeq (c : TimedLRUCache K V) : List (K × V × ℚ) → TimedLRUCache K V
  | [] => c
  | p :: rest => addSeq (c.add 0 p.1 p.2.1 (some p.2.2)) rest

/-- The cache entry a triple turns into. -/
def toEntry (p : K × V × ℚ) : K × TimedLRUCacheItem V := (p.1, ⟨p.2.1, p.2.2⟩)

/-! ## Lemmas about the `OrderedDict` model -/

@[simp]
theorem odLookup_nil (k : K) : odLookup ([] : List (K × TimedLRUCacheItem V)) k = none := rfl

@[simp]
theorem odLookup_cons (k' : K) (i : TimedLRUCacheItem V) (rest : List (K × TimedLRUCacheItem V))
    (k : K) :
    odLookup ((k', i) :: rest) k = if k' = k then some i else odLookup rest k := rfl

theorem odLookup_eq_none_iff (l : List (K × TimedLRUCacheItem V)) (k : K) :
    odLookup l k = none ↔ k ∉ l.map Prod.fst := by
  induction l with
  | nil => simp
  | cons p rest ih =>
      obtain ⟨k', i⟩ := p
      by_cases h : k' = k
      · subst h
        simp
      · simp only [odLookup_cons, if_neg h, ih, List.map_cons, List.mem_cons]
        constructor
        · intro hn hor
          rcases hor with h1 | h2
          · exact h h1.symm
          · exact hn h2
        · intro hn h2
          exact hn (Or.inr h2)

theorem odLookup_append (l₁ l₂ : List (K × TimedLRUCacheItem V)) (k : K) :
    odLookup (l₁ ++ l₂) k =
      match odLookup l₁ k with
      | some i => some i
      | none => odLookup l₂ k := by
  induction l₁ with
  | nil => simp
  | cons p rest ih =>
      obtain ⟨k', i⟩ := p
      by_cases h : k' = k <;> simp [h, ih]

theorem odPop_eq_self_of_lookup_none (l : List (K × TimedLRUCacheItem V)) (k : K)
    (h : odLookup l k = none) : odPop l k = l := by
  induction l with
  | nil => rfl
  | cons p rest ih =>
      obtain ⟨k', i⟩ := p
      by_cases hk : k' = k
      · simp [hk] at h
      · simp [odPop, hk] at h ⊢
        exact ih h

theorem length_odPop_of_lookup_some (l : List (K × TimedLRUCacheItem V)) (k : K)
    (i : TimedLRUCacheItem V) (h : odLookup l k = some i) :
    (odPop l k).length + 1 = l.length := by
  induction l with
  | nil => simp at h
  | cons p rest ih =>
      obtain ⟨k', i'⟩ := p
      by_cases hk : k' = k
      · simp [odPop, hk]
      · simp [hk] at h
        simp [odPop, hk, ih h]

theorem odLookup_odPop_ne (l : List (K × TimedLRUCacheItem V)) (k k' : K) (h : k' ≠ k) :
    odLookup (odPop l k) k' = odLookup l k' := by
  induction l with
  | nil => rfl
  | cons p rest ih =>
      obtain ⟨k₀, i⟩ := p
      simp only [odPop]
      by_cases hk : k₀ = k
      · subst hk
        rw [if_pos rfl, odLookup_cons, if_neg (fun hh => h hh.symm)]
      · rw [if_neg hk]
        by_cases hk' : k₀ = k' <;> simp [hk', ih]

theorem odLookup_odPop_self_of_nodup (l : List (K × TimedLRUCacheItem V)) (k : K)
    (hnd : (l.map Prod.fst).Nodup) : odLookup (odPop l k) k = none := by
  induction l with
  | nil => rfl
  | cons p rest ih =>
      obtain ⟨k₀, i⟩ := p
      simp only [List.map_cons, List.nodup_cons] at hnd
      by_cases hk : k₀ = k
      · subst hk
        simpa [odPop, odLookup_eq_none_iff] using hnd.1
      · simp [odPop, hk, ih hnd.2]

theorem odPop_filter_frame (l : List (K × TimedLRUCacheItem V)) (k : K) :
    (odPop l k).filter (fun p => !decide (p.1 = k)) =
      l.filter (fun p => !decide (p.1 = k)) := by
  induction l with
  | nil => rfl
  | cons p rest ih =>
      obtain ⟨k₀, i⟩ := p
      by_cases hk : k₀ = k
      · simp [odPop, hk, List.filter_cons]
      · simp [odPop, hk, List.filter_cons, ih]

theorem odInsert_eq_append_of_lookup_none (l : List (K × TimedLRUCacheItem V)) (k : K)
    (i : TimedLRUCacheItem V) (h : odLookup l k = none) :
    odInsert l k i = l ++ [(k, i)] := by
  induction l with
  | nil => rfl
  | cons p rest ih =>
      obtain ⟨k', i'⟩ := p
      by_cases hk : k' = k
      · simp [hk] at h
      · simp [hk] at h
        simp [odInsert, hk, ih h]

theorem length_odInsert_le (l : List (K × TimedLRUCacheItem V)) (k : K)
    (i : TimedLRUCacheItem V) : (odInsert l k i).length ≤ l.length + 1 := by
  induction l with
  | nil => simp [odInsert]
  | cons p rest ih =>
      obtain ⟨k', i'⟩ := p
      by_cases hk : k' = k
      · simp [odInsert, hk]
      · simp only [odInsert, if_neg hk, List.length_cons]
        omega

theorem odLookup_odInsert_self (l : List (K × TimedLRUCacheItem V)) (k : K)
    (i : TimedLRUCacheItem V) : odLookup (odInsert l k i) k = some i := by
  induction l with
  | nil => simp [odInsert]
  | cons p rest ih =>
      obtain ⟨k', i'⟩ := p
      by_cases hk : k' = k <;> simp [odInsert, hk, ih]

theorem odLookup_odInsert_ne (l : List (K × TimedLRUCacheItem V)) (k k' : K)
    (i : TimedLRUCacheItem V) (h : k' ≠ k) :
    odLookup (odInsert l k i) k' = odLookup l k' := by
  induction l with
  | nil =>
      simp only [odInsert, odLookup_cons, odLookup_nil]
      rw [if_neg (fun hh => h hh.symm)]
  | cons p rest ih =>
      obtain ⟨k₀, i'⟩ := p
      simp only [odInsert]
      by_cases hk : k₀ = k
      · subst hk
        rw [if_pos rfl, odLookup_cons, odLookup_cons,
          if_neg (fun hh => h hh.symm), if_neg (fun hh => h hh.symm)]
      · rw [if_neg hk]
        by_cases hk' : k₀ = k' <;> simp [hk', ih]

theorem odMoveToEnd_of_lookup_none (l : List (K × TimedLRUCacheItem V)) (k : K)
    (h : odLookup l k = none) : odMoveToEnd l k = l := by
  simp [odMoveToEnd, h]

theorem odMoveToEnd_of_lookup_some (l : List (K × TimedLRUCacheItem V)) (k : K)
    (i : TimedLRUCacheItem V) (h : odLookup l k = some i) :
    odMoveToEnd l k = odPop l k ++ [(k, i)] := by
  simp [odMoveToEnd, h]

theorem length_odMoveToEnd (l : List (K × TimedLRUCacheItem V)) (k : K) :
    (odMoveToEnd l k).length = l.length := by
  rcases h : odLookup l k with _ | i
  · simp [odMoveToEnd, h]
  · have := length_odPop_of_lookup_some l k i h
    simp [odMoveToEnd, h]
    omega

theorem odPop_append_self (l : List (K × TimedLRUCacheItem V)) (k : K)
    (i : TimedLRUCacheItem V) (h : odLookup l k = none) :
    odPop (l ++ [(k, i)]) k = l := by
  induction l with
  | nil => simp [odPop]
  | cons p rest ih =>
      obtain ⟨k₀, i₀⟩ := p
      by_cases hk : k₀ = k
      · simp [hk] at h
      · simp only [odLookup_cons, if_neg hk] at h
        simp [odPop, hk, ih h]

theorem odMoveToEnd_append_self (l : List (K × TimedLRUCacheItem V)) (k : K)
    (i : TimedLRUCacheItem V) (h : odLookup l k = none) :
    odMoveToEnd (l ++ [(k, i)]) k = l ++ [(k, i)] := by
  have hl : odLookup (l ++ [(k, i)]) k = some i := by
    rw [odLookup_append, h]
    simp
  rw [odMoveToEnd_of_lookup_some _ _ _ hl, odPop_append_self l k i h]

theorem odLookup_odMoveToEnd_ne (l : List (K × TimedLRUCacheItem V)) (k k' : K)
    (h : k' ≠ k) : odLookup (odMoveToEnd l k) k' = odLookup l k' := by
  rcases hl : odLookup l k with _ | i
  · rw [odMoveToEnd_of_lookup_none _ _ hl]
  · rw [odMoveToEnd_of_lookup_some _ _ _ hl, odLookup_append,
      odLookup_odPop_ne _ _ _ h]
    rcases odLookup l k' with _ | j
    · simp only [odLookup_cons, odLookup_nil]
      rw [if_neg (fun hh => h hh.symm)]
    · rfl

theorem odLookup_odMoveToEnd_self_of_nodup (l : List (K × TimedLRUCacheItem V)) (k : K)
    (i : TimedLRUCacheItem V) (hl : odLookup l k = some i)
    (hnd : (l.map Prod.fst).Nodup) : odLookup (odMoveToEnd l k) k = some i := by
  rw [odMoveToEnd_of_lookup_some _ _ _ hl, odLookup_append,
    odLookup_odPop_self_of_nodup _ _ hnd]
  simp

/-! ## Claim theorems (first batch) -/

/-- **C2.** With `ttl = T > 0` and an entry for `k` inserted at time `t0`,
`get(k)` at time `t` returns the stored value when `t - t0 < T`; when
`t - t0 ≥ T` (in particular at exactly `T` elapsed) it returns the absent
marker, removes the entry from the map, and `len()` decreases by one. -/
theorem ttl_expiry_boundary (c : TimedLRUCache K V) (T : ℚ) (hT : 0 < T)
    (httl : c.ttl = some T) (k : K) (v : V) (t0 t : ℚ)
    (hk : odLookup c.cache k = some ⟨v, t0⟩)
    (hnd : (c.cache.map Prod.fst).Nodup) :
    (t - t0 < T → (c.get t k).1 = some v)
    ∧ (t - t0 ≥ T →
        (c.get t k).1 = none
        ∧ odLookup ((c.get t k).2).cache k = none
        ∧ ((c.get t k).2).len + 1 = c.len) := by
  constructor
  · intro hlt
    have hexp : ttlExpired c.ttl t t0 = false := by
      simp only [ttlExpired, httl, Bool.and_eq_false_iff, decide_eq_false_iff_not,
        not_not, not_le, ge_iff_le]
      right
      simpa using hlt
    simp [TimedLRUCache.get, hk, hexp]
  · intro hge
    have hexp : ttlExpired c.ttl t t0 = true := by
      simp only [ttlExpired, httl, Bool.and_eq_true, decide_eq_true_eq, ge_iff_le]
      exact ⟨ne_of_gt hT, hge⟩
    refine ⟨?_, ?_, ?_⟩
    · simp [TimedLRUCache.get, hk, hexp]
    · simp only [TimedLRUCache.get, hk, hexp, if_pos]
      exact odLookup_odPop_self_of_nodup _ _ hnd
    · simp only [TimedLRUCache.get, hk, hexp, if_pos, TimedLRUCache.len]
      exact length_odPop_of_lookup_some _ _ _ hk

/-- **C2 witness** at the exact-TTL boundary `t - t0 = T`. -/
theorem ttl_expiry_boundary_witness :
    ((5:ℚ) - 0 < 5 →
        ((⟨none, some 5, [(0, ⟨7, 0⟩)]⟩ : TimedLRUCache ℕ ℕ).get 5 0).1 = some 7)
    ∧ ((5:ℚ) - 0 ≥ 5 →
        ((⟨none, some 5, [(0, ⟨7, 0⟩)]⟩ : TimedLRUCache ℕ ℕ).get 5 0).1 = none
        ∧ odLookup (((⟨none, some 5, [(0, ⟨7, 0⟩)]⟩ : TimedLRUCache ℕ ℕ).get 5 0).2).cache 0 = none
        ∧ (((⟨none, some 5, [(0, ⟨7, 0⟩)]⟩ : TimedLRUCache ℕ ℕ).get 5 0).2).len + 1
            = (⟨none, some 5, [(0, ⟨7, 0⟩)]⟩ : TimedLRUCache ℕ ℕ).len) :=
  ttl_expiry_boundary (⟨none, some 5, [(0, ⟨7, 0⟩)]⟩ : TimedLRUCache ℕ ℕ) 5
    (by norm_num) rfl 0 7 0 5 (by simp) (by simp)

/-- **C3.** When the map holds exactly `max_size` entries, `add` evicts the
entry at the head unconditionally — even when the incoming key is already
present (an update): the result is exactly "drop the head, then
insert/overwrite and move to tail", and when the incoming key is not the
head key, the head key is gone afterwards. -/
theorem add_at_capacity_evicts_head (c : TimedLRUCache K V) (m : Int) (hm : 0 < m)
    (hms : c.max_size = some m) (hlen : (c.cache.length : Int) = m)
    (k₀ : K) (e₀ : TimedLRUCacheItem V) (rest : List (K × TimedLRUCacheItem V))
    (hc : c.cache = (k₀, e₀) :: rest)
    (hnd : k₀ ∉ rest.map Prod.fst)
    (ct : ℚ) (k : K) (v : V) (ts : Option ℚ) :
    (c.add ct k v ts).cache = odMoveToEnd (odInsert rest k ⟨v, ts.getD ct⟩) k
    ∧ (k ≠ k₀ → odLookup (c.add ct k v ts).cache k₀ = none) := by
  have hcap : capReached c.max_size (((k₀, e₀) :: rest).length) = true := by
    rw [← hc]
    simp only [capReached, hms, Bool.and_eq_true, decide_eq_true_eq]
    exact ⟨ne_of_gt hm, hlen⟩
  have hmain : (c.add ct k v ts).cache = odMoveToEnd (odInsert rest k ⟨v, ts.getD ct⟩) k := by
    simp only [TimedLRUCache.add, hc, hcap, if_true, List.tail_cons]
  refine ⟨hmain, fun hne => ?_⟩
  rw [hmain, odLookup_odMoveToEnd_ne _ _ _ (fun hh => hne hh.symm),
    odLookup_odInsert_ne _ _ _ _ (fun hh => hne hh.symm)]
  exact (odLookup_eq_none_iff rest k₀).mpr hnd

/-- **C3 witness**: capacity 2, full, updating the non-head key `1` still
evicts the head key `0`. -/
theorem add_at_capacity_evicts_head_witness :
    ((⟨some 2, none, [(0, ⟨10, 0⟩), (1, ⟨11, 0⟩)]⟩ : TimedLRUCache ℕ ℕ).add 3 1 99 none).cache
        = odMoveToEnd (odInsert [(1, ⟨11, 0⟩)] 1 ⟨99, 3⟩) 1
    ∧ ((1:ℕ) ≠ 0 →
        odLookup ((⟨some 2, none, [(0, ⟨10, 0⟩), (1, ⟨11, 0⟩)]⟩ : TimedLRUCache ℕ ℕ).add 3 1 99 none).cache 0
          = none) :=
  add_at_capacity_evicts_head
    (⟨some 2, none, [(0, ⟨10, 0⟩), (1, ⟨11, 0⟩)]⟩ : TimedLRUCache ℕ ℕ) 2
    (by norm_num) rfl (by simp) 0 ⟨10, 0⟩ [(1, ⟨11, 0⟩)] rfl (by simp) 3 1 99 none

/-- **C8.** When `get` reports absent, all entries other than the requested
key — their values, timestamps and relative recency order — are unchanged
(as is the configuration), and when the key is not present at all the
entire engine state is unchanged. -/
theorem get_miss_frame (c : TimedLRUCache K V) (ct : ℚ) (k : K)
    (h : (c.get ct k).1 = none) :
    ((c.get ct k).2).cache.filter (fun p => !decide (p.1 = k)) =
      c.cache.filter (fun p => !decide (p.1 = k))
    ∧ ((c.get ct k).2).max_size = c.max_size
    ∧ ((c.get ct k).2).ttl = c.ttl
    ∧ (odLookup c.cache k = none → (c.get ct k).2 = c) := by
  rcases hl : odLookup c.cache k with _ | item
  · simp [TimedLRUCache.get, hl]
  · cases hexp : ttlExpired c.ttl ct item.time_added with
    | false =>
        exfalso
        simp [TimedLRUCache.get, hl, hexp] at h
    | true =>
        refine ⟨?_, ?_, ?_, ?_⟩
        · simp only [TimedLRUCache.get, hl, hexp, if_pos]
          exact odPop_filter_frame _ _
        · simp [TimedLRUCache.get, hl, hexp]
        · simp [TimedLRUCache.get, hl, hexp]
        · intro hnone
          exact Option.noConfusion hnone

/-- **C8 witness**: a stale entry for key `0` is removed, while key `1`'s
entry and the configuration survive untouched; a fully absent key `5`
leaves the state unchanged. -/
theorem get_miss_frame_witness :
    (((⟨none, some 1, [(0, ⟨10, 0⟩), (1, ⟨11, 0⟩)]⟩ : TimedLRUCache ℕ ℕ).get 9 0).2).cache.filter
        (fun p => !decide (p.1 = 0)) =
      ((⟨none, some 1, [(0, ⟨10, 0⟩), (1, ⟨11, 0⟩)]⟩ : TimedLRUCache ℕ ℕ)).cache.filter
        (fun p => !decide (p.1 = 0))
    ∧ (((⟨none, some 1, [(0, ⟨10, 0⟩), (1, ⟨11, 0⟩)]⟩ : TimedLRUCache ℕ ℕ).get 9 0).2).max_size
        = (⟨none, some 1, [(0, ⟨10, 0⟩), (1, ⟨11, 0⟩)]⟩ : TimedLRUCache ℕ ℕ).max_size
    ∧ (((⟨none, some 1, [(0, ⟨10, 0⟩), (1, ⟨11, 0⟩)]⟩ : TimedLRUCache ℕ ℕ).get 9 0).2).ttl
        = (⟨none, some 1, [(0, ⟨10, 0⟩), (1, ⟨11, 0⟩)]⟩ : TimedLRUCache ℕ ℕ).ttl
    ∧ (odLookup (⟨none, some 1, [(0, ⟨10, 0⟩), (1, ⟨11, 0⟩)]⟩ : TimedLRUCache ℕ ℕ).cache 0 = none →
        (((⟨none, some 1, [(0, ⟨10, 0⟩), (1, ⟨11, 0⟩)]⟩ : TimedLRUCache ℕ ℕ)).get 9 0).2
          = (⟨none, some 1, [(0, ⟨10, 0⟩), (1, ⟨11, 0⟩)]⟩ : TimedLRUCache ℕ ℕ)) :=
  get_miss_frame (⟨none, some 1, [(0, ⟨10, 0⟩), (1, ⟨11, 0⟩)]⟩ : TimedLRUCache ℕ ℕ) 9 0
    (by simp [TimedLRUCache.get, ttlExpired])

omit [DecidableEq K] [DecidableEq A] in
/-- **C9.** The engine's `clear` empties the map (`len() = 0`) while keeping
`max_size` and `ttl`; the adapter's `clear` empties its engine and resets
`hits` and `misses` to zero (its configuration too is retained). -/
theorem clear_empties_and_keeps_config (c : TimedLRUCache K V)
    (w : TimedLRUCacheWrapper A B) :
    c.clear.cache = [] ∧ c.clear.len = 0
    ∧ c.clear.max_size = c.max_size ∧ c.clear.ttl = c.ttl
    ∧ w.clear.cache.cache = [] ∧ w.clear.cache.len = 0
    ∧ w.clear.hits = 0 ∧ w.clear.misses = 0
    ∧ w.clear.cache.max_size = w.cache.max_size
    ∧ w.clear.cache.ttl = w.cache.ttl
    ∧ w.clear.max_size = w.max_size := by
  simp [TimedLRUCache.clear, TimedLRUCacheWrapper.clear, TimedLRUCache.len]

/-- **C10.** `max_size = 0` behaves exactly like `max_size` absent (the
capacity test never fires, so no capacity eviction ever happens) and
`ttl = 0` behaves exactly like `ttl` absent (the staleness test never
fires, so no entry ever expires by age): zero is falsy in the source's
truthiness checks. -/
theorem zero_config_behaves_as_absent (l : List (K × TimedLRUCacheItem V))
    (ms : Option Int) (ttl : Option ℚ) (ct t : ℚ) (k : K) (v : V) (ts : Option ℚ)
    (n : Nat) :
    capReached (some 0) n = false
    ∧ capReached none n = false
    ∧ ttlExpired (some 0) ct t = false
    ∧ ttlExpired none ct t = false
    ∧ ((⟨some 0, ttl, l⟩ : TimedLRUCache K V).add ct k v ts).cache
        = ((⟨none, ttl, l⟩ : TimedLRUCache K V).add ct k v ts).cache
    ∧ ((⟨some 0, ttl, l⟩ : TimedLRUCache K V).add ct k v ts).cache
        = odMoveToEnd (odInsert l k ⟨v, ts.getD ct⟩) k
    ∧ ((⟨some 0, ttl, l⟩ : TimedLRUCache K V).get ct k).1
        = ((⟨none, ttl, l⟩ : TimedLRUCache K V).get ct k).1
    ∧ ((⟨some 0, ttl, l⟩ : TimedLRUCache K V).get ct k).2.cache
        = ((⟨none, ttl, l⟩ : TimedLRUCache K V).get ct k).2.cache
    ∧ ((⟨ms, some 0, l⟩ : TimedLRUCache K V).get ct k).1
        = ((⟨ms, none, l⟩ : TimedLRUCache K V).get ct k).1
    ∧ ((⟨ms, some 0, l⟩ : TimedLRUCache K V).get ct k).2.cache
        = ((⟨ms, none, l⟩ : TimedLRUCache K V).get ct k).2.cache
    ∧ ((⟨ms, some 0, l⟩ : TimedLRUCache K V).add ct k v ts).cache
        = ((⟨ms, none, l⟩ : TimedLRUCache K V).add ct k v ts).cache := by
  have hcap0 : capReached (some 0) n = false := by simp [capReached]
  have hexp0 : ∀ t' : ℚ, ttlExpired (some 0) ct t' = false := by
    intro t'
    simp [ttlExpired]
  refine ⟨hcap0, rfl, hexp0 t, rfl, ?_, ?_, ?_, ?_, ?_, ?_, ?_⟩
  · simp [TimedLRUCache.add, capReached]
  · simp [TimedLRUCache.add, capReached]
  · rcases hl : odLookup l k with _ | item
    · simp [TimedLRUCache.get, hl]
    · simp only [TimedLRUCache.get, hl]
      cases hexp : ttlExpired ttl ct item.time_added <;> simp [hexp]
  · rcases hl : odLookup l k with _ | item
    · simp [TimedLRUCache.get, hl]
    · simp only [TimedLRUCache.get, hl]
      cases hexp : ttlExpired ttl ct item.time_added <;> simp [hexp]
  · rcases hl : odLookup l k with _ | item
    · simp [TimedLRUCache.get, hl]
    · simp [TimedLRUCache.get, hl, ttlExpired]
  · rcases hl : odLookup l k with _ | item
    · simp [TimedLRUCache.get, hl]
    · simp [TimedLRUCache.get, hl, ttlExpired]
  · simp [TimedLRUCache.add]

/-! ## Lemmas for the operation sequences (C4) -/

theorem stepOp_max_size (c : TimedLRUCache K V) (op : EngineOp K V) :
    (stepOp c op).max_size = c.max_size := by
  cases op with
  | get ct k =>
      simp only [stepOp, TimedLRUCache.get]
      rcases hl : odLookup c.cache k with _ | item
      · simp [hl]
      · cases hexp : ttlExpired c.ttl ct item.time_added <;> simp [hl, hexp]
  | add ct k v ts => rfl
  | len => rfl
  | clear => rfl

theorem len_get_le (c : TimedLRUCache K V) (ct : ℚ) (k : K) :
    ((c.get ct k).2).len ≤ c.len := by
  simp only [TimedLRUCache.get, TimedLRUCache.len]
  rcases hl : odLookup c.cache k with _ | item
  · simp [hl]
  · cases hexp : ttlExpired c.ttl ct item.time_added with
    | false => simp [hl, hexp, length_odMoveToEnd]
    | true =>
        have hp := length_odPop_of_lookup_some _ _ _ hl
        simp only [hl, hexp, if_pos]
        omega

theorem len_add_le (c : TimedLRUCache K V) (m : Int) (hms : c.max_size = some m)
    (hm : 0 < m) (hle : (c.len : Int) ≤ m) (ct : ℚ) (k : K) (v : V) (ts : Option ℚ) :
    ((c.add ct k v ts).len : Int) ≤ m := by
  simp only [TimedLRUCache.add, TimedLRUCache.len] at hle ⊢
  rw [length_odMoveToEnd]
  cases hcap : capReached c.max_size c.cache.length with
  | true =>
      rw [if_pos rfl]
      simp only [capReached, hms, Bool.and_eq_true, decide_eq_true_eq] at hcap
      have h1 := length_odInsert_le c.cache.tail k
        (⟨v, ts.getD ct⟩ : TimedLRUCacheItem V)
      have h2 : c.cache.tail.length = c.cache.length - 1 := by
        simp [List.length_tail]
      omega
  | false =>
      rw [if_neg (by simp [hcap])]
      simp only [capReached, hms, Bool.and_eq_false_iff, decide_eq_false_iff_not,
        not_not] at hcap
      have h1 := length_odInsert_le c.cache k
        (⟨v, ts.getD ct⟩ : TimedLRUCacheItem V)
      rcases hcap with h0 | hne
      · omega
      · omega

theorem stepOp_len_le (c : TimedLRUCache K V) (m : Int) (hms : c.max_size = some m)
    (hm : 0 < m) (hle : (c.len : Int) ≤ m) (op : EngineOp K V) :
    ((stepOp c op).len : Int) ≤ m := by
  cases op with
  | get ct k =>
      have := len_get_le c ct k
      simp only [stepOp]
      omega
  | add ct k v ts => exact len_add_le c m hms hm hle ct k v ts
  | len => exact hle
  | clear =>
      simp [stepOp, TimedLRUCache.clear, TimedLRUCache.len]
      omega

theorem runOps_len_le (ops : List (EngineOp K V)) :
    ∀ (c : TimedLRUCache K V) (m : Int), c.max_size = some m → 0 < m →
      (c.len : Int) ≤ m → ((runOps c ops).len : Int) ≤ m := by
  induction ops with
  | nil => exact fun c m _ _ hle => hle
  | cons op rest ih =>
      intro c m hms hm hle
      have h1 : (stepOp c op).max_size = some m := by rw [stepOp_max_size, hms]
      exact ih (stepOp c op) m h1 hm (stepOp_len_le c m hms hm hle op)

/-- **C4.** From the empty engine with positive `max_size = C`, after any
finite sequence of `get`/`add`/`len`/`clear` operations the entry count
never exceeds `C` (so in particular it holds after every operation of any
sequence, each prefix being itself such a sequence). -/
theorem capacity_never_exceeded (m : Int) (hm : 0 < m) (ttl : Option ℚ)
    (ops : List (EngineOp K V)) :
    ((runOps (TimedLRUCache.mk0 (some m) ttl : TimedLRUCache K V) ops).len : Int) ≤ m :=
  runOps_len_le ops _ m rfl hm
    (by simp [TimedLRUCache.mk0, TimedLRUCache.len]; omega)

/-- **C4 witness**: capacity 2, a sequence of three inserts, a hit, a
clear and a further insert. -/
theorem capacity_never_exceeded_witness :
    ((runOps (TimedLRUCache.mk0 (some 2) none : TimedLRUCache ℕ ℕ)
        [.add 0 1 10 none, .add 1 2 20 none, .add 2 3 30 none,
         .get 3 2, .len, .clear, .add 4 5 50 (some 4)]).len : Int) ≤ 2 :=
  capacity_never_exceeded 2 (by norm_num) none _

/-! ## Key-uniqueness is preserved by the `OrderedDict` operations -/

theorem mem_map_fst_odPop (l : List (K × TimedLRUCacheItem V)) (k x : K)
    (h : x ∈ (odPop l k).map Prod.fst) : x ∈ l.map Prod.fst := by
  induction l with
  | nil => exact absurd h (by simp [odPop])
  | cons p rest ih =>
      obtain ⟨k₀, i⟩ := p
      by_cases hk : k₀ = k
      · simp only [odPop, if_pos hk] at h
        simp [h]
      · simp only [odPop, if_neg hk, List.map_cons, List.mem_cons] at h ⊢
        rcases h with h | h
        · exact Or.inl h
        · exact Or.inr (ih h)

theorem nodup_odPop (l : List (K × TimedLRUCacheItem V)) (k : K)
    (hnd : (l.map Prod.fst).Nodup) : ((odPop l k).map Prod.fst).Nodup := by
  induction l with
  | nil => simp [odPop]
  | cons p rest ih =>
      obtain ⟨k₀, i⟩ := p
      simp only [List.map_cons, List.nodup_cons] at hnd
      by_cases hk : k₀ = k
      · simp only [odPop, if_pos hk]
        exact hnd.2
      · simp only [odPop, if_neg hk, List.map_cons, List.nodup_cons]
        exact ⟨fun hmem => hnd.1 (mem_map_fst_odPop rest k k₀ hmem), ih hnd.2⟩

theorem nodup_odMoveToEnd (l : List (K × TimedLRUCacheItem V)) (k : K)
    (hnd : (l.map Prod.fst).Nodup) : ((odMoveToEnd l k).map Prod.fst).Nodup := by
  rcases hl : odLookup l k with _ | i
  · rwa [odMoveToEnd_of_lookup_none _ _ hl]
  · rw [odMoveToEnd_of_lookup_some _ _ _ hl]
    have hnotin : k ∉ (odPop l k).map Prod.fst :=
      (odLookup_eq_none_iff _ _).mp (odLookup_odPop_self_of_nodup l k hnd)
    simp only [List.map_append, List.map_cons, List.map_nil]
    rw [List.nodup_append]
    exact ⟨nodup_odPop l k hnd, List.nodup_singleton k,
      fun x hx hx' => by
        simp only [List.mem_singleton] at hx'
        exact hnotin (hx' ▸ hx)⟩

theorem odInsert_map_fst_of_lookup_some (l : List (K × TimedLRUCacheItem V)) (k : K)
    (i j : TimedLRUCacheItem V) (h : odLookup l k = some j) :
    (odInsert l k i).map Prod.fst = l.map Prod.fst := by
  induction l with
  | nil => simp at h
  | cons p rest ih =>
      obtain ⟨k₀, i'⟩ := p
      by_cases hk : k₀ = k
      · simp [odInsert, hk]
      · simp only [odLookup_cons, if_neg hk] at h
        simp [odInsert, hk, ih h]

theorem nodup_odInsert (l : List (K × TimedLRUCacheItem V)) (k : K)
    (i : TimedLRUCacheItem V) (hnd : (l.map Prod.fst).Nodup) :
    ((odInsert l k i).map Prod.fst).Nodup := by
  rcases hl : odLookup l k with _ | j
  · rw [odInsert_eq_append_of_lookup_none _ _ _ hl]
    have hnotin : k ∉ l.map Prod.fst := (odLookup_eq_none_iff _ _).mp hl
    simp only [List.map_append, List.map_cons, List.map_nil]
    rw [List.nodup_append]
    exact ⟨hnd, List.nodup_singleton k,
      fun x hx hx' => by
        simp only [List.mem_singleton] at hx'
        exact hnotin (hx' ▸ hx)⟩
  · rwa [odInsert_map_fst_of_lookup_some _ _ _ _ hl]

omit [DecidableEq K] in
theorem nodup_tail_map_fst (l : List (K × TimedLRUCacheItem V))
    (hnd : (l.map Prod.fst).Nodup) : (l.tail.map Prod.fst).Nodup := by
  cases l with
  | nil => simp
  | cons p rest =>
      simp only [List.map_cons, List.nodup_cons] at hnd
      simpa using hnd.2

theorem nodup_add (c : TimedLRUCache K V) (ct : ℚ) (k : K) (v : V) (ts : Option ℚ)
    (hnd : (c.cache.map Prod.fst).Nodup) :
    (((c.add ct k v ts).cache).map Prod.fst).Nodup := by
  simp only [TimedLRUCache.add]
  apply nodup_odMoveToEnd
  apply nodup_odInsert
  cases hcap : capReached c.max_size c.cache.length with
  | true => simpa [hcap] using nodup_tail_map_fst c.cache hnd
  | false => simpa [hcap] using hnd

/-! ## Claim theorems: adapter error propagation (C5) -/

/-- **C5 counterexample.** The claim "the engine's contents are unchanged"
fails when the derived key misses because its entry was *stale*: the `get`
performed by the call removes the stale entry even though the wrapped
computation then raises.  Engine with `ttl = 1` holding a stale entry for
key `0`; at time `10` the failing call leaves the engine empty. -/
theorem failing_call_engine_changed :
    ¬ ((((⟨⟨none, some 1, [(0, ⟨some 5, 0⟩)]⟩, 0, 0, none⟩ :
          TimedLRUCacheWrapper ℕ ℕ).callE
            (fun _ => Except.error ()) 10 0).2.1).cache.cache
        = (⟨⟨none, some 1, [(0, ⟨some 5, 0⟩)]⟩, 0, 0, none⟩ :
            TimedLRUCacheWrapper ℕ ℕ).cache.cache) := by
  have hexp : ttlExpired (some 1) 10 0 = true := by norm_num [ttlExpired]
  simp [TimedLRUCacheWrapper.callE, TimedLRUCache.get, hexp, odPop]

/-- **C5 (amended).** When the derived key misses and the wrapped
computation fails, the failure propagates unchanged, `misses` is
incremented exactly once, `hits` is unchanged, and nothing is written to
the engine: the engine is left exactly as the call's own `get` left it
(which, for a miss, can only have lazily removed the requested key's stale
entry); when the key is not present at all, the engine is fully
unchanged. -/
theorem failing_call_propagates (w : TimedLRUCacheWrapper A B)
    (fn : A → Except E (Option B × Option ℚ)) (ct : ℚ) (a : A) (e : E)
    (hmiss : ((w.cache.get ct a).1).join = none)
    (herr : fn a = .error e) :
    (w.callE fn ct a).1 = .error e
    ∧ (w.callE fn ct a).2.1.misses = w.misses + 1
    ∧ (w.callE fn ct a).2.1.hits = w.hits
    ∧ (w.callE fn ct a).2.1.cache = (w.cache.get ct a).2
    ∧ (w.callE fn ct a).2.2 = 1
    ∧ (odLookup w.cache.cache a = none → (w.callE fn ct a).2.1.cache = w.cache) := by
  have hmiss' : ((w.cache.get ct a).1).bind (fun x => x) = none := hmiss
  refine ⟨?_, ?_, ?_, ?_, ?_, ?_⟩ <;>
    simp [TimedLRUCacheWrapper.callE, hmiss', herr]
  intro hnone
  simp [TimedLRUCache.get, hnone]

/-- **C5 witness**: a failing computation on a wrapper whose engine does
not contain the key at all. -/
theorem failing_call_propagates_witness :
    ((⟨⟨none, none, []⟩, 3, 4, none⟩ : TimedLRUCacheWrapper ℕ ℕ).callE
        (fun _ => Except.error ()) 0 7).1 = Except.error ()
    ∧ ((⟨⟨none, none, []⟩, 3, 4, none⟩ : TimedLRUCacheWrapper ℕ ℕ).callE
        (fun _ => Except.error ()) 0 7).2.1.misses
      = (⟨⟨none, none, []⟩, 3, 4, none⟩ : TimedLRUCacheWrapper ℕ ℕ).misses + 1
    ∧ ((⟨⟨none, none, []⟩, 3, 4, none⟩ : TimedLRUCacheWrapper ℕ ℕ).callE
        (fun _ => Except.error ()) 0 7).2.1.hits
      = (⟨⟨none, none, []⟩, 3, 4, none⟩ : TimedLRUCacheWrapper ℕ ℕ).hits
    ∧ ((⟨⟨none, none, []⟩, 3, 4, none⟩ : TimedLRUCacheWrapper ℕ ℕ).callE
        (fun _ => Except.error ()) 0 7).2.1.cache
      = (((⟨⟨none, none, []⟩, 3, 4, none⟩ : TimedLRUCacheWrapper ℕ ℕ)).cache.get 0 7).2
    ∧ ((⟨⟨none, none, []⟩, 3, 4, none⟩ : TimedLRUCacheWrapper ℕ ℕ).callE
        (fun _ => Except.error ()) 0 7).2.2 = 1
    ∧ (odLookup (⟨⟨none, none, []⟩, 3, 4, none⟩ : TimedLRUCacheWrapper ℕ ℕ).cache.cache 7 = none →
        ((⟨⟨none, none, []⟩, 3, 4, none⟩ : TimedLRUCacheWrapper ℕ ℕ).callE
            (fun _ => Except.error ()) 0 7).2.1.cache
          = (⟨⟨none, none, []⟩, 3, 4, none⟩ : TimedLRUCacheWrapper ℕ ℕ).cache) :=
  failing_call_propagates (⟨⟨none, none, []⟩, 3, 4, none⟩ : TimedLRUCacheWrapper ℕ ℕ)
    (fun _ => Except.error ()) 0 7 () rfl rfl

/-! ## Adapter call shapes and memoization (C1) -/

theorem capReached_zero (ms : Option Int) : capReached ms 0 = false := by
  cases ms with
  | none => rfl
  | some m =>
      by_cases hm : m = 0
      · simp [capReached, hm]
      · simp [capReached, hm, Ne.symm hm]

theorem call_miss_shape (w : TimedLRUCacheWrapper A B)
    (fn : A → Option B × Option ℚ) (ct : ℚ) (a : A)
    (h : ((w.cache.get ct a).1).join = none) :
    w.call fn ct a = ((fn a).1,
      { w with
          cache := ((w.cache.get ct a).2).add ct a (fn a).1 (fn a).2,
          misses := w.misses + 1 }, 1) := by
  have h' : ((w.cache.get ct a).1).bind (fun x => x) = none := h
  simp [TimedLRUCacheWrapper.call, h']

theorem call_hit_shape (w : TimedLRUCacheWrapper A B)
    (fn : A → Option B × Option ℚ) (ct : ℚ) (a : A) (b : B)
    (h : ((w.cache.get ct a).1).join = some b) :
    w.call fn ct a =
      (some b, { w with cache := (w.cache.get ct a).2, hits := w.hits + 1 }, 0) := by
  have h' : ((w.cache.get ct a).1).bind (fun x => x) = some b := h
  simp [TimedLRUCacheWrapper.call, h']

theorem first_call_on_empty (fn : A → Option B × Option ℚ) (a : A)
    (ms : Option Int) (ttl : Option ℚ) (ct1 : ℚ) :
    (TimedLRUCacheWrapper.mk0 ms ttl : TimedLRUCacheWrapper A B).call fn ct1 a
      = ((fn a).1,
         { cache := ⟨ms, ttl, [(a, ⟨(fn a).1, (fn a).2.getD ct1⟩)]⟩,
           hits := 0, misses := 1, max_size := ms }, 1) := by
  have hmiss :
      (((TimedLRUCacheWrapper.mk0 ms ttl : TimedLRUCacheWrapper A B).cache.get ct1 a).1).join
        = none := by
    simp [TimedLRUCacheWrapper.mk0, TimedLRUCache.mk0, TimedLRUCache.get]
  rw [call_miss_shape _ _ _ _ hmiss]
  simp [TimedLRUCacheWrapper.mk0, TimedLRUCache.mk0, TimedLRUCache.get, TimedLRUCache.add,
    odInsert, odMoveToEnd, odPop, ite_self]

/-- **C1 counterexample.** The claim fails for a wrapped computation whose
result is Python `None`: the adapter cannot distinguish the cached `None`
from a miss, so the second identical call invokes the computation again
and counts a second miss (2 invocations, `hits = 0`, `misses = 2`). -/
theorem memoization_counterexample :
    ¬ ((((TimedLRUCacheWrapper.mk0 none none : TimedLRUCacheWrapper ℕ ℕ).call
            (fun _ => (none, none)) 0 0).2.2
        + ((((TimedLRUCacheWrapper.mk0 none none : TimedLRUCacheWrapper ℕ ℕ).call
              (fun _ => (none, none)) 0 0).2.1).call (fun _ => (none, none)) 1 0).2.2 = 1)
      ∧ ((((TimedLRUCacheWrapper.mk0 none none : TimedLRUCacheWrapper ℕ ℕ).call
              (fun _ => (none, none)) 0 0).2.1).call
            (fun _ => (none, none)) 1 0).2.1.cache_info.hits = 1
      ∧ ((((TimedLRUCacheWrapper.mk0 none none : TimedLRUCacheWrapper ℕ ℕ).call
              (fun _ => (none, none)) 0 0).2.1).call
            (fun _ => (none, none)) 1 0).2.1.cache_info.misses = 1) := by
  intro hcl
  have e1 := first_call_on_empty
    (fun _ => ((none : Option ℕ), (none : Option ℚ))) 0 none none 0
  have hmiss2 :
      (((⟨⟨none, none, [(0, ⟨none, 0⟩)]⟩, 0, 1, none⟩ :
          TimedLRUCacheWrapper ℕ ℕ).cache.get 1 0).1).join = none := by
    simp [TimedLRUCache.get, ttlExpired]
  have e2 := call_miss_shape (⟨⟨none, none, [(0, ⟨none, 0⟩)]⟩, 0, 1, none⟩ :
      TimedLRUCacheWrapper ℕ ℕ) (fun _ => (none, none)) 1 0 hmiss2
  obtain ⟨hsum, hhits, hmisses⟩ := hcl
  simp [e1, e2, TimedLRUCacheWrapper.cache_info] at hsum

/-- **C1 (amended).** For every wrapped computation *whose result for the
given arguments is not the `None` marker*: calling a fresh adapter twice
with the same key, with no intervening clear and no TTL expiry of the
entry written by the first call, invokes the wrapped computation exactly
once (once in the first call, zero times in the second); afterwards
`cache_info()` reports `hits = 1` and `misses = 1`, and both calls return
the computation's result. -/
theorem memoization_two_calls (fn : A → Option B × Option ℚ) (a : A)
    (ms : Option Int) (ttl : Option ℚ) (ct1 ct2 : ℚ)
    (hres : (fn a).1 ≠ none)
    (hfresh : ttlExpired ttl ct2 ((fn a).2.getD ct1) = false) :
    ((TimedLRUCacheWrapper.mk0 ms ttl : TimedLRUCacheWrapper A B).call fn ct1 a).2.2 = 1
    ∧ ((TimedLRUCacheWrapper.mk0 ms ttl : TimedLRUCacheWrapper A B).call fn ct1 a).1 = (fn a).1
    ∧ ((((TimedLRUCacheWrapper.mk0 ms ttl : TimedLRUCacheWrapper A B).call fn ct1 a).2.1).call
          fn ct2 a).2.2 = 0
    ∧ ((((TimedLRUCacheWrapper.mk0 ms ttl : TimedLRUCacheWrapper A B).call fn ct1 a).2.1).call
          fn ct2 a).1 = (fn a).1
    ∧ ((((TimedLRUCacheWrapper.mk0 ms ttl : TimedLRUCacheWrapper A B).call fn ct1 a).2.1).call
          fn ct2 a).2.1.cache_info.hits = 1
    ∧ ((((TimedLRUCacheWrapper.mk0 ms ttl : TimedLRUCacheWrapper A B).call fn ct1 a).2.1).call
          fn ct2 a).2.1.cache_info.misses = 1 := by
  obtain ⟨b, hb⟩ : ∃ b, (fn a).1 = some b := by
    rcases hr : (fn a).1 with _ | b
    · exact absurd hr hres
    · exact ⟨b, rfl⟩
  have hhit :
      (((⟨⟨ms, ttl, [(a, ⟨(fn a).1, (fn a).2.getD ct1⟩)]⟩, 0, 1, ms⟩ :
          TimedLRUCacheWrapper A B).cache.get ct2 a).1).join = some b := by
    simp [TimedLRUCache.get, hfresh, hb, Option.join]
  have e2 := call_hit_shape (⟨⟨ms, ttl, [(a, ⟨(fn a).1, (fn a).2.getD ct1⟩)]⟩, 0, 1, ms⟩ :
      TimedLRUCacheWrapper A B) fn ct2 a b hhit
  rw [hb] at e2
  refine ⟨?_, ?_, ?_, ?_, ?_, ?_⟩ <;>
    simp [first_call_on_empty, e2, TimedLRUCacheWrapper.cache_info, hb]

/-- **C1 witness**: a computation returning `42`, no TTL, two calls. -/
theorem memoization_two_calls_witness :
    ((TimedLRUCacheWrapper.mk0 none none : TimedLRUCacheWrapper ℕ ℕ).call
        (fun _ => (some 42, none)) 0 5).2.2 = 1
    ∧ ((TimedLRUCacheWrapper.mk0 none none : TimedLRUCacheWrapper ℕ ℕ).call
        (fun _ => (some 42, none)) 0 5).1 = (some 42 : Option ℕ)
    ∧ ((((TimedLRUCacheWrapper.mk0 none none : TimedLRUCacheWrapper ℕ ℕ).call
          (fun _ => (some 42, none)) 0 5).2.1).call (fun _ => (some 42, none)) 1 5).2.2 = 0
    ∧ ((((TimedLRUCacheWrapper.mk0 none none : TimedLRUCacheWrapper ℕ ℕ).call
          (fun _ => (some 42, none)) 0 5).2.1).call (fun _ => (some 42, none)) 1 5).1
        = (some 42 : Option ℕ)
    ∧ ((((TimedLRUCacheWrapper.mk0 none none : TimedLRUCacheWrapper ℕ ℕ).call
          (fun _ => (some 42, none)) 0 5).2.1).call
            (fun _ => (some 42, none)) 1 5).2.1.cache_info.hits = 1
    ∧ ((((TimedLRUCacheWrapper.mk0 none none : TimedLRUCacheWrapper ℕ ℕ).call
          (fun _ => (some 42, none)) 0 5).2.1).call
            (fun _ => (some 42, none)) 1 5).2.1.cache_info.misses = 1 :=
  memoization_two_calls (fun _ => (some 42, none)) 5 none none 0 1 (by simp) rfl

/-! ## Cached `None` values (C6) -/

theorem odLookup_add_self (c : TimedLRUCache K V) (ct : ℚ) (k : K) (v : V)
    (ts : Option ℚ) (hnd : (c.cache.map Prod.fst).Nodup) :
    odLookup (c.add ct k v ts).cache k = some ⟨v, ts.getD ct⟩ := by
  simp only [TimedLRUCache.add]
  have hnd1 : (((if capReached c.max_size c.cache.length = true
      then c.cache.tail else c.cache)).map Prod.fst).Nodup := by
    cases hcap : capReached c.max_size c.cache.length with
    | false => simpa [hcap] using hnd
    | true => simpa [hcap] using nodup_tail_map_fst c.cache hnd
  exact odLookup_odMoveToEnd_self_of_nodup _ _ _
    (odLookup_odInsert_self _ _ _) (nodup_odInsert _ _ _ hnd1)

/-- **C6.** After `add(k, None)` with the entry fresh at read time:
`get(k)`'s Python return value is the stored `None` — the same marker a
never-added key yields (join to `none`), so the caller cannot distinguish
the two — even though the entry still exists internally and the `get`
promotes it to the tail (most-recently-used); consequently the adapter
counts such a call as a miss and invokes the wrapped computation. -/
theorem cached_none_is_a_miss (w : TimedLRUCacheWrapper A B)
    (fn : A → Option B × Option ℚ) (ct0 ct : ℚ) (a : A) (ts : Option ℚ)
    (hnd : (w.cache.cache.map Prod.fst).Nodup)
    (hfresh : ttlExpired w.cache.ttl ct (ts.getD ct0) = false) :
    ((w.cache.add ct0 a none ts).get ct a).1 = some none
    ∧ (((w.cache.add ct0 a none ts).get ct a).1).join = none
    ∧ (((TimedLRUCache.mk0 w.cache.max_size w.cache.ttl :
          TimedLRUCache A (Option B)).get ct a).1).join = none
    ∧ odLookup ((w.cache.add ct0 a none ts).cache) a = some ⟨none, ts.getD ct0⟩
    ∧ odLookup (((w.cache.add ct0 a none ts).get ct a).2).cache a
        = some ⟨none, ts.getD ct0⟩
    ∧ ((((w.cache.add ct0 a none ts).get ct a).2).cache).getLast?
        = some (a, ⟨none, ts.getD ct0⟩)
    ∧ (({ w with cache := w.cache.add ct0 a none ts } :
          TimedLRUCacheWrapper A B).call fn ct a).2.1.misses = w.misses + 1
    ∧ (({ w with cache := w.cache.add ct0 a none ts } :
          TimedLRUCacheWrapper A B).call fn ct a).2.1.hits = w.hits
    ∧ (({ w with cache := w.cache.add ct0 a none ts } :
          TimedLRUCacheWrapper A B).call fn ct a).2.2 = 1 := by
  have hlk : odLookup (w.cache.add ct0 a none ts).cache a
      = some ⟨none, ts.getD ct0⟩ := odLookup_add_self w.cache ct0 a none ts hnd
  have httl : (w.cache.add ct0 a none ts).ttl = w.cache.ttl := rfl
  have hexp : ttlExpired (w.cache.add ct0 a none ts).ttl ct
      ((⟨none, ts.getD ct0⟩ : TimedLRUCacheItem (Option B)).time_added) = false := by
    rw [httl]
    exact hfresh
  have hget : (w.cache.add ct0 a none ts).get ct a
      = (some none,
         { w.cache.add ct0 a none ts with
             cache := odMoveToEnd (w.cache.add ct0 a none ts).cache a }) := by
    simp [TimedLRUCache.get, hlk, hexp]
  have hndadd : (((w.cache.add ct0 a none ts).cache).map Prod.fst).Nodup :=
    nodup_add w.cache ct0 a none ts hnd
  have hjoin : ((({ w with cache := w.cache.add ct0 a none ts } :
      TimedLRUCacheWrapper A B).cache.get ct a).1).join = none := by
    show (((w.cache.add ct0 a none ts).get ct a).1).join = none
    rw [hget]
    rfl
  have hcall := call_miss_shape ({ w with cache := w.cache.add ct0 a none ts } :
      TimedLRUCacheWrapper A B) fn ct a hjoin
  refine ⟨by rw [hget], by rw [hget]; rfl, ?_, hlk, ?_, ?_, ?_, ?_, ?_⟩
  · simp [TimedLRUCache.mk0, TimedLRUCache.get]
  · rw [hget]
    exact odLookup_odMoveToEnd_self_of_nodup _ _ _ hlk hndadd
  · rw [hget]
    simp only [odMoveToEnd_of_lookup_some _ _ _ hlk]
    exact List.getLast?_concat _
  · rw [hcall]
  · rw [hcall]
  · rw [hcall]

/-- **C6 witness**: an engine holding `0 ↦ 7`; adding value `None` under
key `1` and reading it back at time `2` (no TTL). -/
theorem cached_none_is_a_miss_witness :
    (((⟨⟨none, none, [(0, ⟨some 7, 0⟩)]⟩, 0, 0, none⟩ :
        TimedLRUCacheWrapper ℕ ℕ).cache.add 1 1 none none).get 2 1).1 = some none
    ∧ ((((⟨⟨none, none, [(0, ⟨some 7, 0⟩)]⟩, 0, 0, none⟩ :
        TimedLRUCacheWrapper ℕ ℕ).cache.add 1 1 none none).get 2 1).1).join = none
    ∧ (((TimedLRUCache.mk0
          (⟨⟨none, none, [(0, ⟨some 7, 0⟩)]⟩, 0, 0, none⟩ :
            TimedLRUCacheWrapper ℕ ℕ).cache.max_size
          (⟨⟨none, none, [(0, ⟨some 7, 0⟩)]⟩, 0, 0, none⟩ :
            TimedLRUCacheWrapper ℕ ℕ).cache.ttl :
          TimedLRUCache ℕ (Option ℕ)).get 2 1).1).join = none
    ∧ odLookup (((⟨⟨none, none, [(0, ⟨some 7, 0⟩)]⟩, 0, 0, none⟩ :
        TimedLRUCacheWrapper ℕ ℕ).cache.add 1 1 none none).cache) 1
          = some ⟨none, (none : Option ℚ).getD 1⟩
    ∧ odLookup ((((⟨⟨none, none, [(0, ⟨some 7, 0⟩)]⟩, 0, 0, none⟩ :
        TimedLRUCacheWrapper ℕ ℕ).cache.add 1 1 none none).get 2 1).2).cache 1
          = some ⟨none, (none : Option ℚ).getD 1⟩
    ∧ (((((⟨⟨none, none, [(0, ⟨some 7, 0⟩)]⟩, 0, 0, none⟩ :
        TimedLRUCacheWrapper ℕ ℕ).cache.add 1 1 none none).get 2 1).2).cache).getLast?
          = some (1, ⟨none, (none : Option ℚ).getD 1⟩)
    ∧ (({ (⟨⟨none, none, [(0, ⟨some 7, 0⟩)]⟩, 0, 0, none⟩ : TimedLRUCacheWrapper ℕ ℕ) with
          cache := (⟨⟨none, none, [(0, ⟨some 7, 0⟩)]⟩, 0, 0, none⟩ :
            TimedLRUCacheWrapper ℕ ℕ).cache.add 1 1 none none } :
          TimedLRUCacheWrapper ℕ ℕ).call (fun _ => (some 9, none)) 2 1).2.1.misses
        = (⟨⟨none, none, [(0, ⟨some 7, 0⟩)]⟩, 0, 0, none⟩ :
            TimedLRUCacheWrapper ℕ ℕ).misses + 1
    ∧ (({ (⟨⟨none, none, [(0, ⟨some 7, 0⟩)]⟩, 0, 0, none⟩ : TimedLRUCacheWrapper ℕ ℕ) with
          cache := (⟨⟨none, none, [(0, ⟨some 7, 0⟩)]⟩, 0, 0, none⟩ :
            TimedLRUCacheWrapper ℕ ℕ).cache.add 1 1 none none } :
          TimedLRUCacheWrapper ℕ ℕ).call (fun _ => (some 9, none)) 2 1).2.1.hits
        = (⟨⟨none, none, [(0, ⟨some 7, 0⟩)]⟩, 0, 0, none⟩ :
            TimedLRUCacheWrapper ℕ ℕ).hits
    ∧ (({ (⟨⟨none, none, [(0, ⟨some 7, 0⟩)]⟩, 0, 0, none⟩ : TimedLRUCacheWrapper ℕ ℕ) with
          cache := (⟨⟨none, none, [(0, ⟨some 7, 0⟩)]⟩, 0, 0, none⟩ :
            TimedLRUCacheWrapper ℕ ℕ).cache.add 1 1 none none } :
          TimedLRUCacheWrapper ℕ ℕ).call (fun _ => (some 9, none)) 2 1).2.2 = 1 :=
  cached_none_is_a_miss (⟨⟨none, none, [(0, ⟨some 7, 0⟩)]⟩, 0, 0, none⟩ :
      TimedLRUCacheWrapper ℕ ℕ) (fun _ => (some 9, none)) 1 2 1 none
    (by simp) rfl

/-! ## Lemmas for insertion sequences and LRU order (C7) -/

theorem addSeq_append (l₁ l₂ : List (K × V × ℚ)) :
    ∀ c : TimedLRUCache K V, addSeq c (l₁ ++ l₂) = addSeq (addSeq c l₁) l₂ := by
  induction l₁ with
  | nil => intro c; rfl
  | cons p rest ih => intro c; exact ih (c.add 0 p.1 p.2.1 (some p.2.2))

theorem addSeq_max_size (l : List (K × V × ℚ)) :
    ∀ c : TimedLRUCache K V, (addSeq c l).max_size = c.max_size := by
  induction l with
  | nil => intro c; rfl
  | cons p rest ih => intro c; exact ih (c.add 0 p.1 p.2.1 (some p.2.2))

theorem addSeq_ttl (l : List (K × V × ℚ)) :
    ∀ c : TimedLRUCache K V, (addSeq c l).ttl = c.ttl := by
  induction l with
  | nil => intro c; rfl
  | cons p rest ih => intro c; exact ih (c.add 0 p.1 p.2.1 (some p.2.2))

omit [DecidableEq K] in
theorem map_fst_toEntry (l : List (K × V × ℚ)) :
    (l.map toEntry).map Prod.fst = l.map Prod.fst := by
  induction l with
  | nil => rfl
  | cons p rest ih => simp [toEntry, ih]

theorem odLookup_append_of_left_none (l₁ l₂ : List (K × TimedLRUCacheItem V)) (k : K)
    (h : odLookup l₁ k = none) : odLookup (l₁ ++ l₂) k = odLookup l₂ k := by
  rw [odLookup_append, h]

theorem odLookup_append_of_left_some (l₁ l₂ : List (K × TimedLRUCacheItem V)) (k : K)
    (i : TimedLRUCacheItem V) (h : odLookup l₁ k = some i) :
    odLookup (l₁ ++ l₂) k = some i := by
  rw [odLookup_append, h]

theorem odLookup_toEntries (l : List (K × V × ℚ)) (p : K × V × ℚ)
    (hnd : (l.map Prod.fst).Nodup) (hp : p ∈ l) :
    odLookup (l.map toEntry) p.1 = some ⟨p.2.1, p.2.2⟩ := by
  induction l with
  | nil => cases hp
  | cons p₀ rest ih =>
      simp only [List.map_cons, List.nodup_cons] at hnd
      rcases List.mem_cons.mp hp with h | h
      · subst h
        simp [toEntry]
      · have hne : p₀.1 ≠ p.1 := by
          intro he
          exact hnd.1 (he ▸ List.mem_map_of_mem Prod.fst h)
        simp only [List.map_cons, toEntry, odLookup_cons, if_neg hne]
        exact ih hnd.2 h

theorem add_full_shape (c : TimedLRUCache K V) (ct : ℚ) (k : K) (v : V)
    (ts : Option ℚ) (hcap : capReached c.max_size c.cache.length = true) :
    (c.add ct k v ts).cache = odMoveToEnd (odInsert c.cache.tail k ⟨v, ts.getD ct⟩) k := by
  simp [TimedLRUCache.add, hcap]

theorem add_full_appends (c : TimedLRUCache K V) (ct : ℚ) (k : K) (v : V)
    (ts : Option ℚ) (hcap : capReached c.max_size c.cache.length = true)
    (hmem : odLookup c.cache.tail k = none) :
    (c.add ct k v ts).cache = c.cache.tail ++ [(k, ⟨v, ts.getD ct⟩)] := by
  rw [add_full_shape _ _ _ _ _ hcap, odInsert_eq_append_of_lookup_none _ _ _ hmem,
    odMoveToEnd_append_self _ _ _ hmem]

theorem add_not_full_appends (c : TimedLRUCache K V) (ct : ℚ) (k : K) (v : V)
    (ts : Option ℚ) (hcap : capReached c.max_size c.cache.length = false)
    (hmem : odLookup c.cache k = none) :
    (c.add ct k v ts).cache = c.cache ++ [(k, ⟨v, ts.getD ct⟩)] := by
  have h1 : (c.add ct k v ts).cache = odMoveToEnd (odInsert c.cache k ⟨v, ts.getD ct⟩) k := by
    simp [TimedLRUCache.add, hcap]
  rw [h1, odInsert_eq_append_of_lookup_none _ _ _ hmem,
    odMoveToEnd_append_self _ _ _ hmem]

theorem addSeq_fill (l : List (K × V × ℚ)) :
    ∀ (c : TimedLRUCache K V) (m : Int), c.max_size = some m →
      (c.cache.map Prod.fst ++ l.map Prod.fst).Nodup →
      (c.cache.length : Int) + l.length ≤ m →
      (addSeq c l).cache = c.cache ++ l.map toEntry := by
  induction l with
  | nil =>
      intro c m _ _ _
      simp [addSeq]
  | cons p rest ih =>
      intro c m hms hnd hlen
      simp only [List.length_cons] at hlen
      have hcap : capReached c.max_size c.cache.length = false := by
        simp only [capReached, hms, Bool.and_eq_false_iff, decide_eq_false_iff_not, not_not]
        right
        omega
      have hmem : odLookup c.cache p.1 = none := by
        rw [odLookup_eq_none_iff]
        intro hin
        rw [List.nodup_append] at hnd
        exact hnd.2.2 hin (by simp)
      have step := add_not_full_appends c 0 p.1 p.2.1 (some p.2.2) hcap hmem
      show (addSeq (c.add 0 p.1 p.2.1 (some p.2.2)) rest).cache = _
      rw [ih (c.add 0 p.1 p.2.1 (some p.2.2)) m hms ?_ ?_, step]
      · simp [toEntry]
      · rw [step]
        simp only [List.map_append, List.map_cons, List.map_nil, List.append_assoc,
          List.singleton_append]
        simpa using hnd
      · rw [step]
        simp only [List.length_append, List.length_cons, List.length_nil]
        push_cast
        omega

/-- **C7.** With `max_size = N` (here `N = rest.length + 1`) and no TTL:
inserting the `N+1` distinct keys `p₁ :: rest ++ [q]` with no intervening
`get` evicts exactly the first-inserted key `p₁` (all others remain);
but if `p₁` is `get`-accessed (successfully) just before the `(N+1)`-th
`add`, that add instead evicts the now-least-recently-used second key
`p₂`, and `p₁` survives: the eviction target follows access order, not
insertion order. -/
theorem lru_eviction_by_access_order (p₁ : K × V × ℚ) (rest : List (K × V × ℚ))
    (q : K × V × ℚ) (t : ℚ)
    (hnd : (((p₁ :: rest).map Prod.fst) ++ [q.1]).Nodup) :
    (∀ cFull : TimedLRUCache K V,
      cFull = addSeq (TimedLRUCache.mk0 (some (rest.length + 1 : Int)) none)
          ((p₁ :: rest) ++ [q]) →
      cFull.cache = rest.map toEntry ++ [toEntry q]
      ∧ odLookup cFull.cache p₁.1 = none
      ∧ odLookup cFull.cache q.1 = some ⟨q.2.1, q.2.2⟩
      ∧ (∀ p ∈ rest, odLookup cFull.cache p.1 = some ⟨p.2.1, p.2.2⟩))
    ∧ (∀ (p₂ : K × V × ℚ) (rest₂ : List (K × V × ℚ)), rest = p₂ :: rest₂ →
        ∀ cG cFull2 : TimedLRUCache K V,
        cG = ((addSeq (TimedLRUCache.mk0 (some (rest.length + 1 : Int)) none)
            (p₁ :: rest)).get t p₁.1).2 →
        cFull2 = cG.add 0 q.1 q.2.1 (some q.2.2) →
        ((addSeq (TimedLRUCache.mk0 (some (rest.length + 1 : Int)) none)
            (p₁ :: rest)).get t p₁.1).1 = some p₁.2.1
        ∧ cFull2.cache = rest₂.map toEntry ++ [toEntry p₁, toEntry q]
        ∧ odLookup cFull2.cache p₂.1 = none
        ∧ odLookup cFull2.cache p₁.1 = some ⟨p₁.2.1, p₁.2.2⟩
        ∧ odLookup cFull2.cache q.1 = some ⟨q.2.1, q.2.2⟩) := by
  have hnda := hnd
  rw [List.nodup_append] at hnda
  obtain ⟨hleft, -, hdisj⟩ := hnda
  have hl' : (p₁.1 :: rest.map Prod.fst).Nodup := by simpa using hleft
  obtain ⟨h1r, hrnd⟩ := List.nodup_cons.mp hl'
  have h1q : p₁.1 ≠ q.1 := by
    intro he
    exact hdisj (show p₁.1 ∈ (p₁ :: rest).map Prod.fst by simp)
      (show p₁.1 ∈ [q.1] by simp [he])
  have hqr : q.1 ∉ rest.map Prod.fst := by
    intro hm
    exact hdisj (show q.1 ∈ (p₁ :: rest).map Prod.fst by simp [hm])
      (show q.1 ∈ [q.1] by simp)
  have hfill := addSeq_fill (p₁ :: rest)
    (TimedLRUCache.mk0 (some (rest.length + 1 : Int)) none : TimedLRUCache K V)
    (rest.length + 1 : Int) rfl
    (by simpa [TimedLRUCache.mk0] using hleft)
    (by simp [TimedLRUCache.mk0])
  set cN : TimedLRUCache K V :=
    addSeq (TimedLRUCache.mk0 (some (rest.length + 1 : Int)) none) (p₁ :: rest)
    with hcNdef
  have hfill' : cN.cache = toEntry p₁ :: rest.map toEntry := by
    rw [hfill]
    simp [TimedLRUCache.mk0]
  have hms : cN.max_size = some (rest.length + 1 : Int) := by
    rw [hcNdef, addSeq_max_size]
    rfl
  have httlN : cN.ttl = none := by
    rw [hcNdef, addSeq_ttl]
    rfl
  have hlenN : cN.cache.length = rest.length + 1 := by
    rw [hfill']
    simp
  have hcapN : capReached cN.max_size cN.cache.length = true := by
    rw [hms, hlenN]
    simp only [capReached, Bool.and_eq_true, decide_eq_true_eq]
    constructor
    · omega
    · push_cast
      omega
  constructor
  · intro cFull hf
    have hfull : cFull = cN.add 0 q.1 q.2.1 (some q.2.2) := by
      rw [hf, addSeq_append, ← hcNdef]
      rfl
    have htail : cN.cache.tail = rest.map toEntry := by
      rw [hfill']
      rfl
    have hmemtail : odLookup cN.cache.tail q.1 = none := by
      rw [htail, odLookup_eq_none_iff, map_fst_toEntry]
      exact hqr
    have hres : cFull.cache = rest.map toEntry ++ [toEntry q] := by
      rw [hfull, add_full_appends cN 0 q.1 q.2.1 (some q.2.2) hcapN hmemtail, htail]
      simp [toEntry]
    refine ⟨hres, ?_, ?_, ?_⟩
    · rw [hres, odLookup_append_of_left_none _ _ _
        (by rw [odLookup_eq_none_iff, map_fst_toEntry]; exact h1r)]
      simp [toEntry, Ne.symm h1q]
    · rw [hres, odLookup_append_of_left_none _ _ _
        (by rw [odLookup_eq_none_iff, map_fst_toEntry]; exact hqr)]
      simp [toEntry]
    · intro p hp
      rw [hres]
      exact odLookup_append_of_left_some _ _ _ _ (odLookup_toEntries rest p hrnd hp)
  · intro p₂ rest₂ hr cG cFull2 hg hf2
    subst hr
    have hlk1 : odLookup cN.cache p₁.1 = some ⟨p₁.2.1, p₁.2.2⟩ := by
      rw [hfill']
      simp [toEntry]
    have hexp' : ttlExpired cN.ttl t p₁.2.2 = false := by
      rw [httlN]
      rfl
    have hpop : odPop cN.cache p₁.1 = (p₂ :: rest₂).map toEntry := by
      rw [hfill']
      simp [odPop, toEntry]
    have hmv : odMoveToEnd cN.cache p₁.1
        = (p₂ :: rest₂).map toEntry ++ [(p₁.1, ⟨p₁.2.1, p₁.2.2⟩)] := by
      rw [odMoveToEnd_of_lookup_some _ _ _ hlk1, hpop]
    have hget : cN.get t p₁.1
        = (some p₁.2.1,
           { cN with cache := (p₂ :: rest₂).map toEntry ++ [toEntry p₁] }) := by
      simp [TimedLRUCache.get, hlk1, hexp', hmv, toEntry]
    have hcg : cG.cache = (p₂ :: rest₂).map toEntry ++ [toEntry p₁] := by
      rw [hg, hget]
    have hcgms : cG.max_size = some ((p₂ :: rest₂).length + 1 : Int) := by
      rw [hg, hget]
      exact hms
    have hcglen : cG.cache.length = (p₂ :: rest₂).length + 1 := by
      rw [hcg]
      simp
    have hcap2 : capReached cG.max_size cG.cache.length = true := by
      rw [hcgms, hcglen]
      simp only [capReached, Bool.and_eq_true, decide_eq_true_eq]
      constructor
      · omega
      · push_cast
        omega
    have hq2 : q.1 ≠ p₂.1 := by
      intro he
      exact hqr (by simp [he])
    have hqr₂ : q.1 ∉ rest₂.map Prod.fst := by
      intro hm
      exact hqr (by simp [hm])
    have h1p₂ : p₁.1 ≠ p₂.1 := by
      intro he
      exact h1r (by simp [he])
    have h1r₂ : p₁.1 ∉ rest₂.map Prod.fst := by
      intro hm
      exact h1r (by simp [hm])
    have hrnd' : (p₂.1 :: rest₂.map Prod.fst).Nodup := by
      simpa only [List.map_cons] using hrnd
    obtain ⟨h2r, hrnd₂⟩ := List.nodup_cons.mp hrnd'
    have htail2 : cG.cache.tail = rest₂.map toEntry ++ [toEntry p₁] := by
      rw [hcg]
      rfl
    have hmem2 : odLookup cG.cache.tail q.1 = none := by
      rw [htail2, odLookup_append_of_left_none _ _ _
        (by rw [odLookup_eq_none_iff, map_fst_toEntry]; exact hqr₂)]
      simp [toEntry, h1q]
    have hres2 : cFull2.cache = rest₂.map toEntry ++ [toEntry p₁, toEntry q] := by
      rw [hf2, add_full_appends cG 0 q.1 q.2.1 (some q.2.2) hcap2 hmem2, htail2]
      simp [toEntry]
    refine ⟨by rw [hget], hres2, ?_, ?_, ?_⟩
    · rw [hres2, odLookup_append_of_left_none _ _ _
        (by rw [odLookup_eq_none_iff, map_fst_toEntry]; exact h2r)]
      simp [toEntry, h1p₂, hq2]
    · rw [hres2, odLookup_append_of_left_none _ _ _
        (by rw [odLookup_eq_none_iff, map_fst_toEntry]; exact h1r₂)]
      simp [toEntry]
    · rw [hres2, odLookup_append_of_left_none _ _ _
        (by rw [odLookup_eq_none_iff, map_fst_toEntry]; exact hqr₂)]
      simp [toEntry, h1q]

/-- **C7 witness**: `max_size = 2`, keys `1, 2` inserted, then key `3`;
without a `get`, key `1` is evicted; with `get 1` first, key `2` is
evicted instead and key `1` survives. -/
theorem lru_eviction_by_access_order_witness :
    (∀ cFull : TimedLRUCache ℕ ℕ,
      cFull = addSeq (TimedLRUCache.mk0 (some 2) none)
          (([(1, 11, 0), (2, 12, 0)] : List (ℕ × ℕ × ℚ)) ++ [(3, 13, 0)]) →
      cFull.cache = ([(2, 12, 0)] : List (ℕ × ℕ × ℚ)).map toEntry
          ++ [toEntry (3, 13, 0)]
      ∧ odLookup cFull.cache 1 = none
      ∧ odLookup cFull.cache 3 = some ⟨13, 0⟩
      ∧ (∀ p ∈ ([(2, 12, 0)] : List (ℕ × ℕ × ℚ)),
          odLookup cFull.cache p.1 = some ⟨p.2.1, p.2.2⟩))
    ∧ (∀ (p₂ : ℕ × ℕ × ℚ) (rest₂ : List (ℕ × ℕ × ℚ)),
        ([(2, 12, 0)] : List (ℕ × ℕ × ℚ)) = p₂ :: rest₂ →
        ∀ cG cFull2 : TimedLRUCache ℕ ℕ,
        cG = ((addSeq (TimedLRUCache.mk0 (some 2) none)
            ([(1, 11, 0), (2, 12, 0)] : List (ℕ × ℕ × ℚ))).get 5 1).2 →
        cFull2 = cG.add 0 3 13 (some 0) →
        ((addSeq (TimedLRUCache.mk0 (some 2) none)
            ([(1, 11, 0), (2, 12, 0)] : List (ℕ × ℕ × ℚ))).get 5 1).1 = some 11
        ∧ cFull2.cache = rest₂.map toEntry
            ++ [toEntry (1, 11, 0), toEntry (3, 13, 0)]
        ∧ odLookup cFull2.cache p₂.1 = none
        ∧ odLookup cFull2.cache 1 = some ⟨11, 0⟩
        ∧ odLookup cFull2.cache 3 = some ⟨13, 0⟩) :=
  lru_eviction_by_access_order (1, 11, 0) [(2, 12, 0)] (3, 13, 0) 5 (by simp)

end TimedLRU
